import Mathlib

/-!
Shallow embedding of `src/lib.rs` (crate `hash_map`): a separate-chaining
hash table from string keys to 32-bit integer values, with FNV-1a hashing
and load-factor driven resizing.

Modelling conventions:
* A Rust `String`/`&str` key is modelled by its byte sequence, `List Nat`
  (Rust compares string keys bytewise, and `hash` consumes `key.as_bytes()`).
* The `i32` values are modelled as `Int`; the code never computes with
  values, it only stores and returns them, so the 32-bit range plays no role.
* The `u32` field `entries_count` is modelled as `Nat`; the only subtraction
  (`self.entries_count -= 1` in `delete`) happens in the branch where an
  entry was just removed, and the development proves the counter is then
  positive, so wrap-around never occurs on reachable states.
* `u64` arithmetic in `hash` (`wrapping_mul`) is `Nat` arithmetic with an
  explicit `% 2 ^ 64`.
* The `f32` arithmetic of `resize_if_necessary` is modelled twice. The
  definition `resize_if_necessary` used by `set` and `delete` carries it out
  in exact rational arithmetic (`1.5` and `0.25` are exactly representable
  in `f32`; `RESIZE_FACTOR = 1.4` is idealized as `7 / 5`); this agrees with
  the `f32` computation on small tables (in particular on every state the
  concrete runs below reach) but can differ by one bucket at multi-million
  bucket counts, because `1.4f32 = 11744051 / 2^23 < 7 / 5`. The definition
  `resize_if_necessary_f32` is the bit-exact model of the same source lines:
  every cast, product, quotient and the final ceiling are rounded to `f32`
  (round to nearest, ties to even) via `f32round`; it witnesses where the
  idealization and the code part ways (bucket count 5320723).
* `Vec` indexing is modelled with `List.getD` / `List.set`; every access the
  code performs is proved in range on the states where it is reached.
-/

/-- Keys: the byte sequence of the Rust string key. -/
abbrev Key := List Nat

/-- One stored `(String, i32)` pair. -/
abbrev Entry := Key × Int

/-- One bucket: `Vec<(String, i32)>`. -/
abbrev Bucket := List Entry

/-- Model of `pub struct HashMap { buckets: Vec<Vec<(String, i32)>>, entries_count: u32 }`. -/
structure HashMap where
  buckets : List Bucket
  entries_count : Nat
deriving DecidableEq

/-- Tunable `const MIN_BUCKET_COUNT: usize = 10`. -/
def MIN_BUCKET_COUNT : Nat := 10

/-- Tunable `const MAX_LOAD_FACTOR: f32 = 1.5` (exactly representable in `f32`). -/
def MAX_LOAD_FACTOR : ℚ := 3 / 2

/-- Tunable `const MIN_LOAD_FACTOR: f32 = 0.25` (exactly representable in `f32`). -/
def MIN_LOAD_FACTOR : ℚ := 1 / 4

/-- Tunable `const RESIZE_FACTOR: f32 = 1.4`, idealized as the exact rational
`7/5`. The `f32` constant is really `11744051 / 2^23`, strictly below `7/5`
(see `RESIZE_FACTOR_F32`); the idealization changes `ceil` results only at
bucket counts in the millions. -/
def RESIZE_FACTOR : ℚ := 7 / 5

/-- Constant `FNV_OFFSET_BASIS: u64` from `HashMap::hash`. -/
def FNV_OFFSET_BASIS : Nat := 14695981039346656037

/-- Constant `FNV_PRIME: u64` from `HashMap::hash`. -/
def FNV_PRIME : Nat := 1099511628211

namespace HashMap

/-- Model of `HashMap::new`: `MIN_BUCKET_COUNT` empty buckets, zero entries. -/
def new : HashMap :=
  { buckets := List.replicate MIN_BUCKET_COUNT [], entries_count := 0 }

/-- Model of `HashMap::hash` (lines 75-86): FNV-1a over the key bytes in `u64`
arithmetic, then `% bucket_count`. `u64` wrap-around is the explicit `% 2 ^ 64`. -/
def hash (key : Key) (bucket_count : Nat) : Nat :=
  (key.foldl (fun h octet => ((h ^^^ octet) * FNV_PRIME) % 2 ^ 64) FNV_OFFSET_BASIS)
    % bucket_count

/-- Model of `HashMap::get` (lines 25-33): scan the bucket at the key's hash
index, return the first entry whose key matches. -/
def get (m : HashMap) (key : Key) : Option Int :=
  let bucket := m.buckets.getD (hash key m.buckets.length) []
  (bucket.find? (fun e => e.1 == key)).map (fun e => e.2)

/-- Helper for `delete`'s loop (lines 49-55): remove the first entry of the
bucket whose key matches, returning `none` when no entry matches (the Rust
loop falls through) and `some` of the shortened bucket when one does
(`v.remove(i)` keeps the relative order of the rest). -/
def removeFirst (key : Key) : Bucket → Option Bucket
  | [] => none
  | e :: rest =>
    if e.1 == key then some rest
    else (removeFirst key rest).map (fun rest2 => e :: rest2)

/-- One step of the rehash loop in `HashMap::resize` (lines 107-112):
`new_buckets[HashMap::hash(&item.0, new_bucket_count)].push(item)`. -/
def pushAt (n : Nat) (bs : List Bucket) (item : Entry) : List Bucket :=
  bs.set (hash item.1 n) (bs.getD (hash item.1 n) [] ++ [item])

/-- Model of `HashMap::resize` (lines 100-114): allocate `new_bucket_count`
fresh empty buckets, re-insert every stored entry at its new hash index
(iterating the old buckets in order), keep `entries_count`. The `println!`
diagnostic is ignored. -/
def resize (m : HashMap) (new_bucket_count : Nat) : HashMap :=
  { buckets :=
      m.buckets.flatten.foldl (pushAt new_bucket_count)
        (List.replicate new_bucket_count [])
    entries_count := m.entries_count }

/-- Idealized model of `HashMap::resize_if_necessary` (lines 88-98): grow to
`ceil(len * RESIZE_FACTOR)` when the load factor exceeds `MAX_LOAD_FACTOR`,
shrink to `ceil(len / RESIZE_FACTOR)` when it is below `MIN_LOAD_FACTOR` and
`len / 2 > MIN_BUCKET_COUNT` (integer division), otherwise do nothing. The
`f32` computations are idealized as exact rational arithmetic; the bit-exact
model is `resize_if_necessary_f32`, and the two agree except that the resulting
size can differ by one at multi-million bucket counts. -/
def resize_if_necessary (m : HashMap) : HashMap :=
  let load_factor : ℚ := (m.entries_count : ℚ) / (m.buckets.length : ℚ)
  if load_factor > MAX_LOAD_FACTOR then
    m.resize (Int.toNat ⌈(m.buckets.length : ℚ) * RESIZE_FACTOR⌉)
  else if load_factor < MIN_LOAD_FACTOR ∧ m.buckets.length / 2 > MIN_BUCKET_COUNT then
    m.resize (Int.toNat ⌈(m.buckets.length : ℚ) / RESIZE_FACTOR⌉)
  else
    m

/-- Model of `HashMap::delete` (lines 46-57): look up the key's bucket; when a
matching entry exists, remove it and decrement the counter and return at once
(the Rust `return` skips the resize check); when none exists, the loop falls
through and `resize_if_necessary` runs. -/
def delete (m : HashMap) (key : Key) : HashMap :=
  let bucket_index := hash key m.buckets.length
  match removeFirst key (m.buckets.getD bucket_index []) with
  | some v2 =>
      { buckets := m.buckets.set bucket_index v2
        entries_count := m.entries_count - 1 }
  | none => m.resize_if_necessary

/-- Insertion step of `HashMap::set` (lines 38-41), named so the proofs can
speak about the state between the push and the resize check: append
`(key, value)` to the key's bucket and increment the counter. -/
def set_insert (m : HashMap) (key : Key) (value : Int) : HashMap :=
  let bucket_index := hash key m.buckets.length
  { buckets :=
      m.buckets.set bucket_index
        (m.buckets.getD bucket_index [] ++ [(key, value)])
    entries_count := m.entries_count + 1 }

/-- Model of `HashMap::set` (lines 35-44): first `delete` the key (upsert),
then push the new entry into the bucket computed under the *current* bucket
count (the delete may itself have resized), then run the resize check. -/
def set (m : HashMap) (key : Key) (value : Int) : HashMap :=
  ((m.delete key).set_insert key value).resize_if_necessary

/-- Model of `HashMap::get_bucket` (lines 59-64): `Ok` of the bucket when the
index is in range, `Err` otherwise. Read-only: the model returns no state, as
the Rust method takes `&self`. -/
def get_bucket (m : HashMap) (idx : Nat) : Except String Bucket :=
  match m.buckets[idx]? with
  | some bucket => Except.ok bucket
  | none => Except.error "bucket index out of bounds"

/-- Model of `HashMap::get_entries_count`. -/
def get_entries_count (m : HashMap) : Nat := m.entries_count

/-- Model of `HashMap::get_buckets_count`. -/
def get_buckets_count (m : HashMap) : Nat := m.buckets.length

/-- FNV-1a accumulator exactly as the spec words it (section 4.1): start from
the offset basis `14695981039346656037`; for each byte `b` of the key the
accumulator becomes `(accumulator XOR b) * 1099511628211 mod 2^64`. -/
def fnv1a (key : Key) : Nat :=
  key.foldl (fun acc b => ((acc ^^^ b) * 1099511628211) % 2 ^ 64)
    14695981039346656037

/-- The keys currently stored in the table, in bucket order. -/
def keys (m : HashMap) : List Key := m.buckets.flatten.map Prod.fst

/-- States reachable through the public constructors and mutators. -/
inductive Reachable : HashMap → Prop
  | new : Reachable HashMap.new
  | set (m : HashMap) (key : Key) (value : Int) :
      Reachable m → Reachable (m.set key value)
  | delete (m : HashMap) (key : Key) :
      Reachable m → Reachable (m.delete key)

/-- The table invariant: the bucket count never falls below the floor, the
counter equals the number of stored entries, every entry sits in the bucket
its key hashes to under the current bucket count, and keys are globally
unique. -/
structure Inv (m : HashMap) : Prop where
  floor : MIN_BUCKET_COUNT ≤ m.buckets.length
  count : m.entries_count = m.buckets.flatten.length
  placement : ∀ i, i < m.buckets.length →
    ∀ e ∈ m.buckets.getD i [], hash e.1 m.buckets.length = i
  nodup : (keys m).Nodup

/-- Concrete state for exercising `delete`: 31 sets of the distinct one-byte
keys `[0] .. [30]` grow the table to 28 buckets with 31 entries. -/
def mGrown : HashMap :=
  (List.range 31).foldl (fun m i => m.set [i] 0) HashMap.new

/-- Then 24 deletions of present keys (`[0] .. [23]`) leave 7 entries; none of
them runs the resize check, so the table still has 28 buckets. -/
def mDrained : HashMap :=
  (List.range 24).foldl (fun m i => m.delete [i]) mGrown

/-- Round a rational to the nearest integer, ties to even (the IEEE 754
default rounding). -/
def roundHalfEven (q : ℚ) : ℤ :=
  if q - ⌊q⌋ < 1 / 2 then ⌊q⌋
  else if q - ⌊q⌋ > 1 / 2 then ⌊q⌋ + 1
  else if ⌊q⌋ % 2 = 0 then ⌊q⌋ else ⌊q⌋ + 1

/-- Halving loop for the base-2 logarithm floor of a rational `≥ 1`; the fuel
makes the recursion structural so the kernel can evaluate it. -/
def log2floorUp : Nat → ℚ → ℤ → ℤ
  | 0, _, e => e
  | fuel + 1, q, e => if q < 2 then e else log2floorUp fuel (q / 2) (e + 1)

/-- Doubling loop for the base-2 logarithm floor of a rational in `(0, 1)`. -/
def log2floorDown : Nat → ℚ → ℤ → ℤ
  | 0, _, e => e
  | fuel + 1, q, e => if 1 ≤ q then e else log2floorDown fuel (q * 2) (e - 1)

/-- Floor of the base-2 logarithm of a positive rational: the unique `e` with
`2 ^ e ≤ q < 2 ^ (e + 1)`, valid for `2 ^ (-300) < q < 2 ^ 300` (ample for
every value the table's `f32` computations can take). -/
def log2floor (q : ℚ) : ℤ :=
  if 1 ≤ q then log2floorUp 300 q 0 else log2floorDown 300 q 0

/-- Round a nonnegative rational to the nearest IEEE 754 single-precision
value (round to nearest, ties to even): scale the significand into
`[2^23, 2^24)`, round it to an integer, and scale back. Exact on the normal
range of `f32`, which covers every value occurring in the table's `f32`
computations. -/
def f32round (q : ℚ) : ℚ :=
  if q ≤ 0 then 0
  else (roundHalfEven (q * 2 ^ (23 - log2floor q)) : ℚ) * 2 ^ (log2floor q - 23)

/-- The source constant `RESIZE_FACTOR: f32 = 1.4` with its exact `f32` value:
`1.4` rounds to the significand `11744051`, so `1.4f32 = 11744051 / 2^23`,
strictly below `7 / 5`. -/
def RESIZE_FACTOR_F32 : ℚ := 11744051 / 8388608

/-- Bit-exact model of line 89, `self.entries_count as f32 /
self.buckets.len() as f32`: both integer-to-`f32` casts round to nearest, and
the `f32` division returns the correctly rounded exact quotient. -/
def loadFactor_f32 (m : HashMap) : ℚ :=
  f32round (f32round (m.entries_count : ℚ) / f32round (m.buckets.length : ℚ))

/-- Bit-exact model of line 92, `(self.buckets.len() as f32 * RESIZE_FACTOR)
.ceil() as usize`: cast, correctly rounded product, then `f32::ceil` — exact,
because an `f32` value at or above `2^23` is already an integer and below
`2^23` every integer ceiling is representable — and the value-preserving
integer cast. -/
def growSize_f32 (n : Nat) : Nat :=
  Int.toNat ⌈f32round (f32round (n : ℚ) * RESIZE_FACTOR_F32)⌉

/-- Bit-exact model of line 95, `(self.buckets.len() as f32 / RESIZE_FACTOR)
.ceil() as usize`. -/
def shrinkSize_f32 (n : Nat) : Nat :=
  Int.toNat ⌈f32round (f32round (n : ℚ) / RESIZE_FACTOR_F32)⌉

/-- Bit-exact model of `HashMap::resize_if_necessary` (lines 88-98): the same
branching as `resize_if_necessary`, with every `f32` operation rounded as the
hardware rounds it. The comparisons against `MAX_LOAD_FACTOR = 1.5` and
`MIN_LOAD_FACTOR = 0.25` need no rounding: both constants are exactly
representable in `f32`, and comparing `f32` values is an exact rational
comparison. -/
def resize_if_necessary_f32 (m : HashMap) : HashMap :=
  if loadFactor_f32 m > MAX_LOAD_FACTOR then
    m.resize (growSize_f32 m.buckets.length)
  else if loadFactor_f32 m < MIN_LOAD_FACTOR ∧
      m.buckets.length / 2 > MIN_BUCKET_COUNT then
    m.resize (shrinkSize_f32 m.buckets.length)
  else m

/-- The policy-relevant state at the 40th grow of a pure-insert run: after the
39th grow the table has 5320723 buckets, and the insert that brings the count
to 7981085 entries is the first whose `f32` load factor exceeds 1.5 (the exact
load factor `7981085 / 5320723` also exceeds `3/2`). The policy reads only
`entries_count` and the bucket count, so the buckets are left empty to keep
the term small. -/
def mPolicy : HashMap :=
  { buckets := List.replicate 5320723 [], entries_count := 7981085 }

/-! ### Basic lemmas about the hash and the bucket helpers -/

theorem hash_lt (key : Key) {n : Nat} (h : 0 < n) : hash key n < n :=
  Nat.mod_lt _ h

theorem getD_set_self {α : Type _} {bs : List α} {i : Nat} (h : i < bs.length)
    (b d : α) : (bs.set i b).getD i d = b := by
  rw [List.getD_eq_getElem _ _ (by simpa using h), List.getElem_set_self]

theorem getD_set_ne {α : Type _} {bs : List α} {i j : Nat} (hne : i ≠ j)
    (b d : α) : (bs.set i b).getD j d = bs.getD j d := by
  rcases Nat.lt_or_ge j bs.length with hj | hj
  · rw [List.getD_eq_getElem _ _ (by simpa using hj), List.getD_eq_getElem _ _ hj,
      List.getElem_set_ne hne]
  · rw [List.getD_eq_default _ _ (by simpa using hj), List.getD_eq_default _ _ hj]

theorem getD_replicate_nil {α : Type _} (n j : Nat) :
    (List.replicate n ([] : List α)).getD j [] = [] := by
  rcases Nat.lt_or_ge j n with h | h
  · rw [List.getD_eq_getElem _ _ (by simpa using h), List.getElem_replicate]
  · rw [List.getD_eq_default _ _ (by simpa using h)]

theorem removeFirst_eq_none {key : Key} {b : Bucket} :
    removeFirst key b = none ↔ ∀ e ∈ b, e.1 ≠ key := by
  induction b with
  | nil => simp [removeFirst]
  | cons e rest ih =>
    by_cases h : e.1 = key
    · simp [removeFirst, h]
    · simp [removeFirst, h, ih]

theorem removeFirst_sublist {key : Key} {b b2 : Bucket}
    (h : removeFirst key b = some b2) : b2.Sublist b := by
  induction b generalizing b2 with
  | nil => simp [removeFirst] at h
  | cons e rest ih =>
    rw [removeFirst] at h
    by_cases he : e.1 = key
    · rw [if_pos (by simpa using he)] at h
      cases h
      exact List.sublist_cons_self _ _
    · rw [if_neg (by simpa using he)] at h
      rcases Option.map_eq_some'.mp h with ⟨r2, hr2, rfl⟩
      exact (ih hr2).cons₂ e

theorem removeFirst_length {key : Key} {b b2 : Bucket}
    (h : removeFirst key b = some b2) : b2.length + 1 = b.length := by
  induction b generalizing b2 with
  | nil => simp [removeFirst] at h
  | cons e rest ih =>
    rw [removeFirst] at h
    by_cases he : e.1 = key
    · rw [if_pos (by simpa using he)] at h
      cases h
      rfl
    · rw [if_neg (by simpa using he)] at h
      rcases Option.map_eq_some'.mp h with ⟨r2, hr2, rfl⟩
      simpa using ih hr2

theorem removeFirst_keys_not_mem {key : Key} {b b2 : Bucket}
    (h : removeFirst key b = some b2) (hnd : (b.map Prod.fst).Nodup) :
    ∀ e ∈ b2, e.1 ≠ key := by
  induction b generalizing b2 with
  | nil => simp [removeFirst] at h
  | cons e rest ih =>
    rw [removeFirst] at h
    rw [List.map_cons, List.nodup_cons] at hnd
    by_cases he : e.1 = key
    · rw [if_pos (by simpa using he)] at h
      cases h
      intro x hx hxk
      exact hnd.1 (by rw [he, ← hxk]; exact List.mem_map_of_mem Prod.fst hx)
    · rw [if_neg (by simpa using he)] at h
      rcases Option.map_eq_some'.mp h with ⟨r2, hr2, rfl⟩
      intro x hx
      rcases List.mem_cons.mp hx with rfl | hx2
      · exact he
      · exact ih hr2 hnd.2 x hx2

/-! ### Decomposing `flatten` around one bucket index -/

theorem flatten_decomp {α : Type _} (bs : List (List α)) {i : Nat}
    (h : i < bs.length) :
    bs.flatten = (bs.take i).flatten ++ (bs.getD i [] ++ (bs.drop (i + 1)).flatten) := by
  conv_lhs => rw [← List.take_append_drop i bs]
  rw [List.flatten_append, List.drop_eq_getElem_cons h, List.flatten_cons,
    List.getD_eq_getElem _ _ h]

theorem flatten_set {α : Type _} (bs : List (List α)) {i : Nat}
    (h : i < bs.length) (b : List α) :
    (bs.set i b).flatten = (bs.take i).flatten ++ (b ++ (bs.drop (i + 1)).flatten) := by
  rw [List.set_eq_take_append_cons_drop, if_pos h, List.flatten_append, List.flatten_cons]

theorem mem_flatten_of_mem_getD {α : Type _} {bs : List (List α)} {i : Nat} {e : α}
    (h : e ∈ bs.getD i []) : e ∈ bs.flatten := by
  rcases Nat.lt_or_ge i bs.length with hi | hi
  · rw [List.getD_eq_getElem _ _ hi] at h
    exact List.mem_flatten.mpr ⟨_, List.getElem_mem hi, h⟩
  · rw [List.getD_eq_default _ _ hi] at h
    cases h

/-! ### The rehash loop of `resize` -/

theorem foldl_pushAt_length (n : Nat) (l : List Entry) (acc : List Bucket) :
    (l.foldl (pushAt n) acc).length = acc.length := by
  induction l generalizing acc with
  | nil => rfl
  | cons e l ih => rw [List.foldl_cons, ih, pushAt, List.length_set]

theorem foldl_pushAt_getD (n : Nat) (l : List Entry) (acc : List Bucket)
    (hlen : acc.length = n) {j : Nat} (hj : j < n) :
    (l.foldl (pushAt n) acc).getD j [] =
      acc.getD j [] ++ l.filter (fun e => hash e.1 n == j) := by
  induction l generalizing acc with
  | nil => simp
  | cons e l ih =>
    rw [List.foldl_cons, List.filter_cons]
    have hacc : (pushAt n acc e).length = n := by rw [pushAt, List.length_set, hlen]
    by_cases hij : hash e.1 n = j
    · rw [if_pos (by simpa using hij), ih (pushAt n acc e) hacc, pushAt, hij,
        getD_set_self (by rw [hlen]; exact hj) _ _]
      simp
    · rw [if_neg (by simpa using hij), ih (pushAt n acc e) hacc, pushAt,
        getD_set_ne hij _ _]

theorem resize_buckets_length (m : HashMap) (n : Nat) :
    (m.resize n).buckets.length = n := by
  show (m.buckets.flatten.foldl (pushAt n) (List.replicate n [])).length = n
  rw [foldl_pushAt_length, List.length_replicate]

theorem resize_entries_count (m : HashMap) (n : Nat) :
    (m.resize n).entries_count = m.entries_count := rfl

theorem resize_getD (m : HashMap) {n j : Nat} (hj : j < n) :
    (m.resize n).buckets.getD j [] =
      m.buckets.flatten.filter (fun e => hash e.1 n == j) := by
  show (m.buckets.flatten.foldl (pushAt n) (List.replicate n [])).getD j [] = _
  rw [foldl_pushAt_getD n _ _ (List.length_replicate n []) hj, getD_replicate_nil,
    List.nil_append]

theorem resize_buckets_eq (m : HashMap) (n : Nat) :
    (m.resize n).buckets =
      (List.range n).map (fun j => m.buckets.flatten.filter (fun e => hash e.1 n == j)) := by
  apply List.ext_getElem
  · rw [resize_buckets_length, List.length_map, List.length_range]
  · intro j h1 h2
    have hj : j < n := by rwa [resize_buckets_length] at h1
    have hd := resize_getD m hj
    rw [List.getD_eq_getElem _ _ h1] at hd
    rw [hd, List.getElem_map, List.getElem_range]

/-- Inserting one element at a single index of an indexed family of lists
permutes the flattened family by a `cons`. -/
theorem flatten_insert_perm {α : Type _} (x : α) :
    ∀ (n : Nat) (f g : Nat → List α) (j0 : Nat), j0 < n →
      (∀ j, j ≠ j0 → f j = g j) → f j0 = x :: g j0 →
      (((List.range n).map f).flatten).Perm (x :: ((List.range n).map g).flatten) := by
  intro n
  induction n with
  | zero => intro f g j0 h; omega
  | succ n ih =>
    intro f g j0 hj0 hfg hx
    rw [List.range_succ, List.map_append, List.map_append, List.flatten_append,
      List.flatten_append]
    simp only [List.map_cons, List.map_nil, List.flatten_cons, List.flatten_nil,
      List.append_nil]
    rcases Nat.lt_or_ge j0 n with hlt | hge
    · rw [hfg n (by omega)]
      exact (List.Perm.append_right (g n) (ih f g j0 hlt hfg hx)).trans
        (List.Perm.refl _)
    · have hj0n : j0 = n := by omega
      subst hj0n
      have hmaps : (List.range j0).map f = (List.range j0).map g := by
        apply List.map_congr_left
        intro j hj
        exact hfg j (by have := List.mem_range.mp hj; omega)
      rw [hmaps, hx]
      exact List.perm_middle

theorem filter_partition_perm {n : Nat} (hn : 0 < n) (l : List Entry) :
    (((List.range n).map (fun j => l.filter (fun e => hash e.1 n == j))).flatten).Perm l := by
  induction l with
  | nil => simp
  | cons e l ih =>
    have hstep := flatten_insert_perm e n
      (fun j => (e :: l).filter (fun x => hash x.1 n == j))
      (fun j => l.filter (fun x => hash x.1 n == j))
      (hash e.1 n) (hash_lt _ hn)
      (by
        intro j hj
        simp only [List.filter_cons]
        rw [if_neg (by simpa using fun h => hj h.symm)])
      (by
        simp only [List.filter_cons]
        rw [if_pos (by simp)])
    exact hstep.trans (ih.cons e)

theorem resize_flatten_perm (m : HashMap) {n : Nat} (hn : 0 < n) :
    ((m.resize n).buckets.flatten).Perm m.buckets.flatten := by
  rw [resize_buckets_eq m n]
  exact filter_partition_perm hn _

/-! ### The resize policy in integer arithmetic -/

theorem ceil_natCast_div (a b : Nat) (hb : 0 < b) :
    ⌈(a : ℚ) / (b : ℚ)⌉ = (((a + b - 1) / b : Nat) : ℤ) := by
  have hb2 : (0 : ℚ) < (b : ℚ) := by exact_mod_cast hb
  obtain ⟨q, hq⟩ : ∃ q, q = (a + b - 1) / b := ⟨_, rfl⟩
  rw [← hq]
  have e1 : b * ((a + b - 1) / b) + (a + b - 1) % b = a + b - 1 := Nat.div_add_mod _ _
  rw [← hq] at e1
  obtain ⟨t, ht⟩ : ∃ t, t = b * q := ⟨_, rfl⟩
  rw [← ht] at e1
  have e2 : (a + b - 1) % b < b := Nat.mod_lt _ hb
  have h1 : a ≤ t := by omega
  have h2 : t + 1 ≤ a + b := by omega
  rw [ht] at h1 h2
  have hc1 : (a : ℚ) ≤ (q : ℚ) * b := by
    have : ((a : ℚ)) ≤ ((b * q : Nat) : ℚ) := by exact_mod_cast h1
    push_cast at this
    linarith
  have hc2 : (q : ℚ) * b + 1 ≤ (a : ℚ) + b := by
    have : ((b * q : Nat) : ℚ) + 1 ≤ (a : ℚ) + b := by exact_mod_cast h2
    push_cast at this
    linarith
  rw [Int.ceil_eq_iff]
  constructor
  · rw [lt_div_iff₀ hb2]
    push_cast
    nlinarith
  · rw [div_le_iff₀ hb2]
    push_cast
    linarith

theorem grow_size_eq (n : Nat) :
    Int.toNat ⌈(n : ℚ) * RESIZE_FACTOR⌉ = (7 * n + 4) / 5 := by
  have h : (n : ℚ) * RESIZE_FACTOR = ((7 * n : Nat) : ℚ) / ((5 : Nat) : ℚ) := by
    rw [RESIZE_FACTOR]
    push_cast
    ring
  rw [h, ceil_natCast_div _ _ (by norm_num), Int.toNat_natCast,
    show 7 * n + 5 - 1 = 7 * n + 4 by omega]

theorem shrink_size_eq (n : Nat) :
    Int.toNat ⌈(n : ℚ) / RESIZE_FACTOR⌉ = (5 * n + 6) / 7 := by
  have h : (n : ℚ) / RESIZE_FACTOR = ((5 * n : Nat) : ℚ) / ((7 : Nat) : ℚ) := by
    rw [RESIZE_FACTOR, div_div_eq_mul_div]
    push_cast
    ring
  rw [h, ceil_natCast_div _ _ (by norm_num), Int.toNat_natCast,
    show 5 * n + 7 - 1 = 5 * n + 6 by omega]

theorem load_gt_iff {e n : Nat} (hn : 0 < n) :
    ((e : ℚ) / (n : ℚ) > MAX_LOAD_FACTOR) ↔ 3 * n < 2 * e := by
  have hn2 : (0 : ℚ) < (n : ℚ) := by exact_mod_cast hn
  rw [MAX_LOAD_FACTOR, gt_iff_lt, div_lt_div_iff₀ (by norm_num) hn2]
  constructor
  · intro h
    have : (3 * n : ℚ) < 2 * e := by linarith
    exact_mod_cast this
  · intro h
    have : (3 * n : ℚ) < 2 * e := by exact_mod_cast h
    linarith

theorem load_lt_iff {e n : Nat} (hn : 0 < n) :
    ((e : ℚ) / (n : ℚ) < MIN_LOAD_FACTOR) ↔ 4 * e < n := by
  have hn2 : (0 : ℚ) < (n : ℚ) := by exact_mod_cast hn
  rw [MIN_LOAD_FACTOR, div_lt_div_iff₀ hn2 (by norm_num)]
  constructor
  · intro h
    have : (4 * e : ℚ) < n := by linarith
    exact_mod_cast this
  · intro h
    have : (4 * e : ℚ) < n := by exact_mod_cast h
    linarith

theorem resize_if_necessary_def (m : HashMap) :
    m.resize_if_necessary =
      if (m.entries_count : ℚ) / (m.buckets.length : ℚ) > MAX_LOAD_FACTOR then
        m.resize (Int.toNat ⌈(m.buckets.length : ℚ) * RESIZE_FACTOR⌉)
      else if (m.entries_count : ℚ) / (m.buckets.length : ℚ) < MIN_LOAD_FACTOR ∧
          m.buckets.length / 2 > MIN_BUCKET_COUNT then
        m.resize (Int.toNat ⌈(m.buckets.length : ℚ) / RESIZE_FACTOR⌉)
      else m := rfl

/-- The resize policy, restated in exact integer arithmetic: the rational
comparison `entries / len > 3/2` is `3 * len < 2 * entries`, the comparison
`entries / len < 1/4` is `4 * entries < len`, `ceil(len * 7/5)` is
`(7 * len + 4) / 5` and `ceil(len / (7/5))` is `(5 * len + 6) / 7` in natural
division. -/
theorem resize_if_necessary_eq (m : HashMap) (hn : 0 < m.buckets.length) :
    m.resize_if_necessary =
      if 3 * m.buckets.length < 2 * m.entries_count then
        m.resize ((7 * m.buckets.length + 4) / 5)
      else if 4 * m.entries_count < m.buckets.length ∧
          MIN_BUCKET_COUNT < m.buckets.length / 2 then
        m.resize ((5 * m.buckets.length + 6) / 7)
      else m := by
  rw [resize_if_necessary_def, grow_size_eq, shrink_size_eq]
  rw [if_congr (load_gt_iff hn) rfl
    (if_congr (and_congr_left' (load_lt_iff hn)) rfl rfl)]

theorem rin_entries_count (m : HashMap) :
    m.resize_if_necessary.entries_count = m.entries_count := by
  rw [resize_if_necessary_def]
  split_ifs <;> rfl

theorem rin_flatten_perm {m : HashMap} (hm : 0 < m.buckets.length) :
    (m.resize_if_necessary.buckets.flatten).Perm m.buckets.flatten := by
  rw [resize_if_necessary_eq m hm]
  split_ifs with h1 h2
  · exact resize_flatten_perm m (by omega)
  · exact resize_flatten_perm m (by omega)
  · exact List.Perm.refl _

/-! ### Preservation of the invariant -/

theorem min_pos : 0 < MIN_BUCKET_COUNT := by norm_num [MIN_BUCKET_COUNT]

theorem inv_len_pos {m : HashMap} (hm : Inv m) : 0 < m.buckets.length :=
  Nat.lt_of_lt_of_le min_pos hm.floor

theorem inv_resize {m : HashMap} (hm : Inv m) {n : Nat}
    (hn : MIN_BUCKET_COUNT ≤ n) : Inv (m.resize n) := by
  have hn0 : 0 < n := Nat.lt_of_lt_of_le min_pos hn
  have hperm := resize_flatten_perm m hn0
  constructor
  · rw [resize_buckets_length]
    exact hn
  · rw [resize_entries_count, hperm.length_eq, hm.count]
  · intro i hi e he
    rw [resize_buckets_length] at hi
    rw [resize_getD m hi] at he
    have hp := List.of_mem_filter he
    rw [resize_buckets_length]
    simpa using hp
  · have hkeys : (keys (m.resize n)).Perm (keys m) := hperm.map Prod.fst
    exact hkeys.nodup_iff.mpr hm.nodup

theorem inv_resize_if_necessary {m : HashMap} (hm : Inv m) :
    Inv m.resize_if_necessary := by
  rw [resize_if_necessary_eq m (inv_len_pos hm)]
  have hfl := hm.floor
  rw [MIN_BUCKET_COUNT] at hfl
  split_ifs with h1 h2
  · apply inv_resize hm
    rw [MIN_BUCKET_COUNT, Nat.le_div_iff_mul_le (by norm_num)]
    omega
  · apply inv_resize hm
    rw [MIN_BUCKET_COUNT] at h2
    rw [MIN_BUCKET_COUNT, Nat.le_div_iff_mul_le (by norm_num)]
    omega
  · exact hm

/-! ### Characterising `get` -/

theorem bucket_keys_nodup {m : HashMap} (hm : Inv m) (i : Nat) :
    ((m.buckets.getD i []).map Prod.fst).Nodup := by
  rcases Nat.lt_or_ge i m.buckets.length with hi | hi
  · have hsub : (m.buckets.getD i []).Sublist m.buckets.flatten := by
      rw [flatten_decomp m.buckets hi]
      exact (List.sublist_append_left _ _).trans (List.sublist_append_right _ _)
    exact List.Nodup.sublist (hsub.map Prod.fst) hm.nodup
  · rw [List.getD_eq_default _ _ hi]
    simp

theorem mem_bucket_of_mem_flatten {m : HashMap} (hm : Inv m) {e : Entry}
    (he : e ∈ m.buckets.flatten) :
    e ∈ m.buckets.getD (hash e.1 m.buckets.length) [] := by
  rcases List.mem_flatten.mp he with ⟨b, hb, heb⟩
  rcases List.mem_iff_getElem.mp hb with ⟨j, hj, rfl⟩
  have hplace := hm.placement j hj e (by rw [List.getD_eq_getElem _ _ hj]; exact heb)
  rw [hplace, List.getD_eq_getElem _ _ hj]
  exact heb

theorem find_nodup {b : Bucket} {k : Key} {v : Int}
    (hnd : (b.map Prod.fst).Nodup) (hmem : (k, v) ∈ b) :
    b.find? (fun e => e.1 == k) = some (k, v) := by
  induction b with
  | nil => cases hmem
  | cons e rest ih =>
    rw [List.map_cons, List.nodup_cons] at hnd
    by_cases he : e.1 = k
    · have hekv : e = (k, v) := by
        rcases List.mem_cons.mp hmem with h | h
        · exact h.symm
        · refine absurd ?_ hnd.1
          have hk : k ∈ List.map Prod.fst rest := List.mem_map_of_mem Prod.fst h
          rwa [← he] at hk
      rw [hekv, List.find?_cons_of_pos _ (by simp)]
    · have hm2 : (k, v) ∈ rest := by
        rcases List.mem_cons.mp hmem with h | h
        · exact absurd (congrArg Prod.fst h.symm) he
        · exact h
      rw [List.find?_cons_of_neg _ (by simpa using he)]
      exact ih hnd.2 hm2

theorem get_def (m : HashMap) (key : Key) :
    m.get key = ((m.buckets.getD (hash key m.buckets.length) []).find?
      (fun e => e.1 == key)).map (fun e => e.2) := rfl

theorem get_eq_some_iff {m : HashMap} (hm : Inv m) {k : Key} {v : Int} :
    m.get k = some v ↔ (k, v) ∈ m.buckets.flatten := by
  constructor
  · intro h
    rw [get_def] at h
    rcases Option.map_eq_some'.mp h with ⟨e, hfind, hev⟩
    have hmem := List.mem_of_find?_eq_some hfind
    have he1 : e.1 = k := by simpa using List.find?_some hfind
    have hekv : e = (k, v) := by
      rcases e with ⟨k1, v1⟩
      simp only at he1 hev
      rw [he1, hev]
    rw [hekv] at hmem
    exact mem_flatten_of_mem_getD hmem
  · intro h
    have hb := mem_bucket_of_mem_flatten hm h
    rw [get_def, find_nodup (bucket_keys_nodup hm _) hb]
    rfl

theorem get_eq_none_iff {m : HashMap} {k : Key} :
    m.get k = none ↔
      ∀ e ∈ m.buckets.getD (hash k m.buckets.length) [], e.1 ≠ k := by
  rw [get_def, Option.map_eq_none', List.find?_eq_none]
  simp

theorem get_eq_none_iff_inv {m : HashMap} (hm : Inv m) {k : Key} :
    m.get k = none ↔ k ∉ keys m := by
  constructor
  · intro h hk
    rcases List.mem_map.mp hk with ⟨⟨k1, v1⟩, he, hef⟩
    simp only at hef
    subst hef
    have hsome : m.get k1 = some v1 := (get_eq_some_iff hm).mpr he
    rw [h] at hsome
    cases hsome
  · intro hk
    cases hg : m.get k with
    | none => rfl
    | some v =>
      exact absurd (List.mem_map.mpr ⟨(k, v), (get_eq_some_iff hm).mp hg, rfl⟩) hk

/-! ### `delete` and `set` preserve the invariant -/

theorem delete_def (m : HashMap) (key : Key) :
    m.delete key =
      match removeFirst key (m.buckets.getD (hash key m.buckets.length) []) with
      | some v2 =>
          { buckets := m.buckets.set (hash key m.buckets.length) v2
            entries_count := m.entries_count - 1 }
      | none => m.resize_if_necessary := rfl

theorem delete_found {m : HashMap} {key : Key} {b2 : Bucket}
    (h : removeFirst key (m.buckets.getD (hash key m.buckets.length) []) = some b2) :
    m.delete key =
      { buckets := m.buckets.set (hash key m.buckets.length) b2
        entries_count := m.entries_count - 1 } := by
  rw [delete_def, h]

theorem delete_absent {m : HashMap} {key : Key}
    (h : removeFirst key (m.buckets.getD (hash key m.buckets.length) []) = none) :
    m.delete key = m.resize_if_necessary := by
  rw [delete_def, h]

theorem inv_delete {m : HashMap} (hm : Inv m) (key : Key) : Inv (m.delete key) := by
  rcases hrf : removeFirst key (m.buckets.getD (hash key m.buckets.length) [])
    with _ | b2
  · rw [delete_absent hrf]
    exact inv_resize_if_necessary hm
  · rw [delete_found hrf]
    have hlen0 : 0 < m.buckets.length := inv_len_pos hm
    have hilt : hash key m.buckets.length < m.buckets.length := hash_lt _ hlen0
    have hsub := removeFirst_sublist hrf
    have hlb2 := removeFirst_length hrf
    constructor
    · show MIN_BUCKET_COUNT ≤ (m.buckets.set _ b2).length
      rw [List.length_set]
      exact hm.floor
    · show m.entries_count - 1 = (m.buckets.set _ b2).flatten.length
      rw [flatten_set m.buckets hilt b2]
      have hold := hm.count
      rw [flatten_decomp m.buckets hilt] at hold
      simp only [List.length_append] at hold ⊢
      omega
    · intro j hj e he
      show hash e.1 (m.buckets.set _ b2).length = j
      rw [List.length_set]
      have hj2 : j < m.buckets.length := by
        have hj3 : j < (m.buckets.set (hash key m.buckets.length) b2).length := hj
        rwa [List.length_set] at hj3
      have he2 : e ∈ (m.buckets.set (hash key m.buckets.length) b2).getD j [] := he
      by_cases hij : hash key m.buckets.length = j
      · subst hij
        rw [getD_set_self hilt _ _] at he2
        exact hm.placement _ hilt e (hsub.subset he2)
      · rw [getD_set_ne hij _ _] at he2
        exact hm.placement j hj2 e he2
    · show ((m.buckets.set _ b2).flatten.map Prod.fst).Nodup
      have hsubfl : ((m.buckets.set (hash key m.buckets.length) b2).flatten).Sublist
          m.buckets.flatten := by
        rw [flatten_set m.buckets hilt b2, flatten_decomp m.buckets hilt]
        exact (hsub.append_right _).append_left _
      exact List.Nodup.sublist (hsubfl.map Prod.fst) hm.nodup

theorem not_mem_keys_delete {m : HashMap} (hm : Inv m) (key : Key) :
    key ∉ keys (m.delete key) := by
  rcases hrf : removeFirst key (m.buckets.getD (hash key m.buckets.length) [])
    with _ | b2
  · rw [delete_absent hrf]
    intro hk
    have hperm : (keys m.resize_if_necessary).Perm (keys m) :=
      (rin_flatten_perm (inv_len_pos hm)).map Prod.fst
    have hk2 : key ∈ keys m := hperm.subset hk
    rcases List.mem_map.mp hk2 with ⟨e, he, hef⟩
    have hmb := mem_bucket_of_mem_flatten hm he
    rw [hef] at hmb
    exact removeFirst_eq_none.mp hrf e hmb hef
  · rw [delete_found hrf]
    intro hk
    rcases List.mem_map.mp hk with ⟨e, he, hef⟩
    have he2 : e ∈ (m.buckets.set (hash key m.buckets.length) b2).flatten := he
    rcases List.mem_flatten.mp he2 with ⟨b, hb, heb⟩
    rcases List.mem_iff_getElem.mp hb with ⟨j, hj, hbj⟩
    have hj2 : j < m.buckets.length := by simpa [List.length_set] using hj
    by_cases hij : hash key m.buckets.length = j
    · subst hij
      have hbb2 : b = b2 := by rw [← hbj, List.getElem_set_self]
      subst hbb2
      exact removeFirst_keys_not_mem hrf (bucket_keys_nodup hm _) e heb hef
    · have hbj2 : b = m.buckets.getD j [] := by
        rw [← hbj, List.getElem_set_ne hij, List.getD_eq_getElem _ _ hj2]
      have hplace := hm.placement j hj2 e (hbj2 ▸ heb)
      rw [hef] at hplace
      exact hij hplace

theorem set_insert_def (m : HashMap) (key : Key) (value : Int) :
    m.set_insert key value =
      { buckets := m.buckets.set (hash key m.buckets.length)
          (m.buckets.getD (hash key m.buckets.length) [] ++ [(key, value)])
        entries_count := m.entries_count + 1 } := rfl

theorem set_insert_flatten_perm {m : HashMap} (hlen : 0 < m.buckets.length)
    (key : Key) (value : Int) :
    ((m.set_insert key value).buckets.flatten).Perm
      ((key, value) :: m.buckets.flatten) := by
  have hilt := hash_lt key hlen
  show ((m.buckets.set (hash key m.buckets.length)
      (m.buckets.getD (hash key m.buckets.length) [] ++ [(key, value)])).flatten).Perm _
  rw [flatten_set m.buckets hilt _, flatten_decomp m.buckets hilt,
    List.append_assoc (m.buckets.getD (hash key m.buckets.length) []),
    List.singleton_append, ← List.append_assoc, ← List.append_assoc]
  exact List.perm_middle

theorem inv_set_insert {m : HashMap} (hm : Inv m) {key : Key}
    (hk : key ∉ keys m) (value : Int) : Inv (m.set_insert key value) := by
  have hlen0 := inv_len_pos hm
  have hilt := hash_lt key hlen0
  have hperm := set_insert_flatten_perm hlen0 key value
  constructor
  · show MIN_BUCKET_COUNT ≤ (m.buckets.set _ _).length
    rw [List.length_set]
    exact hm.floor
  · show m.entries_count + 1 = (m.set_insert key value).buckets.flatten.length
    rw [hperm.length_eq, List.length_cons, hm.count]
  · intro j hj e he
    show hash e.1 (m.buckets.set _ _).length = j
    rw [List.length_set]
    have hj2 : j < m.buckets.length := by
      have hj3 : j < (m.buckets.set (hash key m.buckets.length)
          (m.buckets.getD (hash key m.buckets.length) [] ++ [(key, value)])).length := hj
      rwa [List.length_set] at hj3
    have he2 : e ∈ (m.buckets.set (hash key m.buckets.length)
        (m.buckets.getD (hash key m.buckets.length) [] ++ [(key, value)])).getD j [] := he
    by_cases hij : hash key m.buckets.length = j
    · subst hij
      rw [getD_set_self hilt _ _] at he2
      rcases List.mem_append.mp he2 with h | h
      · exact hm.placement _ hilt e h
      · rw [List.mem_singleton.mp h]
    · rw [getD_set_ne hij _ _] at he2
      exact hm.placement j hj2 e he2
  · have hkeys : (keys (m.set_insert key value)).Perm (key :: keys m) := by
      have hmap := hperm.map Prod.fst
      simpa [keys] using hmap
    rw [hkeys.nodup_iff, List.nodup_cons]
    exact ⟨hk, hm.nodup⟩

theorem set_def (m : HashMap) (key : Key) (value : Int) :
    m.set key value = ((m.delete key).set_insert key value).resize_if_necessary := rfl

theorem inv_set {m : HashMap} (hm : Inv m) (key : Key) (value : Int) :
    Inv (m.set key value) :=
  inv_resize_if_necessary
    (inv_set_insert (inv_delete hm key) (not_mem_keys_delete hm key) value)

theorem inv_new : Inv HashMap.new := by
  constructor
  · show MIN_BUCKET_COUNT ≤ (List.replicate MIN_BUCKET_COUNT ([] : Bucket)).length
    rw [List.length_replicate]
  · rfl
  · intro i hi e he
    rw [show HashMap.new.buckets = List.replicate MIN_BUCKET_COUNT ([] : Bucket) from rfl,
      getD_replicate_nil] at he
    cases he
  · show ((HashMap.new.buckets.flatten).map Prod.fst).Nodup
    have : HashMap.new.buckets.flatten = ([] : List Entry) := rfl
    rw [this]
    exact List.nodup_nil

theorem reachable_inv {m : HashMap} (h : Reachable m) : Inv m := by
  induction h with
  | new => exact inv_new
  | set m key value _ ih => exact inv_set ih key value
  | delete m key _ ih => exact inv_delete ih key

/-! ### Operational consequences -/

theorem get_set_self {m : HashMap} (hm : Inv m) (key : Key) (value : Int) :
    (m.set key value).get key = some value := by
  have h1 : Inv (m.delete key) := inv_delete hm key
  have hk : key ∉ keys (m.delete key) := not_mem_keys_delete hm key
  have h2 : Inv ((m.delete key).set_insert key value) := inv_set_insert h1 hk value
  have h3 : Inv (m.set key value) := inv_set hm key value
  rw [get_eq_some_iff h3]
  have hperm : ((m.set key value).buckets.flatten).Perm
      (((m.delete key).set_insert key value).buckets.flatten) :=
    rin_flatten_perm (inv_len_pos h2)
  exact hperm.mem_iff.mpr
    ((set_insert_flatten_perm (inv_len_pos h1) key value).mem_iff.mpr
      (List.mem_cons_self _ _))

theorem get_delete_self {m : HashMap} (hm : Inv m) (key : Key) :
    (m.delete key).get key = none :=
  (get_eq_none_iff_inv (inv_delete hm key)).mpr (not_mem_keys_delete hm key)

theorem delete_entries_count_found {m : HashMap} (hm : Inv m) {key : Key} {v : Int}
    (hget : m.get key = some v) :
    1 ≤ m.entries_count ∧ (m.delete key).entries_count + 1 = m.entries_count := by
  have hmem : (key, v) ∈ m.buckets.flatten := (get_eq_some_iff hm).mp hget
  have hb : (key, v) ∈ m.buckets.getD (hash key m.buckets.length) [] :=
    mem_bucket_of_mem_flatten hm hmem
  have hpos : 1 ≤ m.entries_count := by
    rw [hm.count]
    exact List.length_pos.mpr (List.ne_nil_of_mem hmem)
  refine ⟨hpos, ?_⟩
  rcases hrf : removeFirst key (m.buckets.getD (hash key m.buckets.length) [])
    with _ | b2
  · exact absurd rfl (removeFirst_eq_none.mp hrf (key, v) hb)
  · rw [delete_found hrf]
    show m.entries_count - 1 + 1 = m.entries_count
    omega

theorem delete_entries_count_absent {m : HashMap} {key : Key}
    (hget : m.get key = none) :
    (m.delete key).entries_count = m.entries_count := by
  have hrf : removeFirst key (m.buckets.getD (hash key m.buckets.length) []) = none :=
    removeFirst_eq_none.mpr (get_eq_none_iff.mp hget)
  rw [delete_absent hrf, rin_entries_count]

/-! ### The claims -/

set_option maxRecDepth 400000 in
/-- C1: the claim states that `delete` evaluates the resize policy after the
lookup regardless of whether an entry was found and removed. The code does
not: when an entry is removed the Rust `return` skips `resize_if_necessary`
(it runs only on the no-op path). Concretely, `mDrained` is reached by 31
inserts and 24 deletions and has 28 buckets and 7 entries; deleting the
present key `[24]` leaves 28 buckets and 6 entries, although evaluating the
resize policy on that very state (load factor `6/28 < 0.25`, and
`28 / 2 = 14 > 10`) shrinks to 20 buckets — so the policy was not evaluated. -/
theorem delete_found_skips_resize_check :
    (mDrained.get [24]).isSome = true ∧
      (mDrained.delete [24]).get_buckets_count = 28 ∧
      (mDrained.delete [24]).get_entries_count = 6 ∧
      ((mDrained.delete [24]).resize_if_necessary).get_buckets_count = 20 := by
  with_unfolding_all decide

/-- C2: on every reachable state the bucket count is at least
`MIN_BUCKET_COUNT` (10): the table starts with 10 buckets and no resize ever
produces fewer. -/
theorem bucket_count_never_below_floor {m : HashMap} (h : Reachable m) :
    MIN_BUCKET_COUNT ≤ m.get_buckets_count :=
  (reachable_inv h).floor

theorem bucket_count_never_below_floor_witness :
    MIN_BUCKET_COUNT ≤ HashMap.new.get_buckets_count :=
  bucket_count_never_below_floor Reachable.new

/-- C3: on every reachable state, immediately after `set(k, v)` a call
`get(k)` returns `v`, including when the set triggered a resize. -/
theorem get_after_set {m : HashMap} (h : Reachable m) (key : Key) (value : Int) :
    (m.set key value).get key = some value :=
  get_set_self (reachable_inv h) key value

theorem get_after_set_witness :
    (HashMap.new.set [116, 101, 115, 116] 5).get [116, 101, 115, 116] = some 5 :=
  get_after_set Reachable.new [116, 101, 115, 116] 5

/-- C4: on every reachable state `get_entries_count()` equals the sum of the
bucket lengths and equals the number of distinct keys stored (the stored keys
are pairwise distinct, so their count is the number of distinct keys). -/
theorem entries_count_spec {m : HashMap} (h : Reachable m) :
    m.get_entries_count = (m.buckets.map List.length).sum ∧
      m.get_entries_count = (keys m).length ∧ (keys m).Nodup := by
  have hm := reachable_inv h
  refine ⟨?_, ?_, hm.nodup⟩
  · show m.entries_count = _
    rw [hm.count, ← List.length_flatten]
  · show m.entries_count = _
    rw [hm.count, keys, List.length_map]

theorem entries_count_spec_witness :
    HashMap.new.get_entries_count = (HashMap.new.buckets.map List.length).sum ∧
      HashMap.new.get_entries_count = (keys HashMap.new).length ∧
      (keys HashMap.new).Nodup :=
  entries_count_spec Reachable.new

/-- C5: on every reachable state, every stored entry sits in the bucket its
key hashes to under the current bucket count (so resize rehashes every entry
into its new index). -/
theorem entries_in_hash_bucket {m : HashMap} (h : Reachable m) :
    ∀ i < m.get_buckets_count, ∀ e ∈ m.buckets.getD i [],
      hash e.1 m.get_buckets_count = i :=
  fun i hi e he => (reachable_inv h).placement i hi e he

set_option maxRecDepth 4000 in
theorem entries_in_hash_bucket_witness :
    hash (([1], 7) : Entry).1 (HashMap.new.set [1] 7).get_buckets_count = 4 :=
  entries_in_hash_bucket (Reachable.set HashMap.new [1] 7 Reachable.new) 4
    (by with_unfolding_all decide) ([1], 7) (by with_unfolding_all decide)

/-- C6: `hash` is exactly 64-bit FNV-1a followed by the modulo: it agrees with
the accumulator recurrence the spec gives (for every key and every bucket
count, hence in particular every `bucket_count ≥ 1`), and the accumulator
matches the reference FNV-1a vectors for the empty string (the offset basis)
and for `"test"` (bytes `[116, 101, 115, 116]`, reference value
`0xf9e6e6ef197c2b25`). The function is pure by construction. -/
theorem hash_is_fnv1a :
    (∀ (key : Key) (bucket_count : Nat),
        hash key bucket_count = fnv1a key % bucket_count) ∧
      fnv1a [] = 14695981039346656037 ∧
      fnv1a [116, 101, 115, 116] = 18007334074686647077 :=
  ⟨fun _ _ => rfl, rfl, by decide⟩

theorem resize_if_necessary_f32_def (m : HashMap) :
    resize_if_necessary_f32 m =
      if loadFactor_f32 m > MAX_LOAD_FACTOR then
        m.resize (growSize_f32 m.buckets.length)
      else if loadFactor_f32 m < MIN_LOAD_FACTOR ∧
          m.buckets.length / 2 > MIN_BUCKET_COUNT then
        m.resize (shrinkSize_f32 m.buckets.length)
      else m := rfl

set_option maxRecDepth 10000 in
/-- C7, counterexample: the claim's exact-arithmetic grow size is false of the
code's `f32` arithmetic. At `mPolicy` — 5320723 buckets, 7981085 entries, the
very pair the program's pure-insert growth orbit reaches at its 40th grow —
the exact load factor exceeds `3/2` (first conjunct), so the claim as stated
says the bucket count becomes `ceil(n * 1.4) = (7n + 4) / 5 = 7449013` (last
conjunct); but the bit-exact `f32` policy grows to `7449012` (second
conjunct), one bucket fewer, because `1.4f32 < 7/5` and the `f32` product
rounds below the integer boundary. The idealized rational model does return
`7449013` (third conjunct), confirming the divergence is between the code and
the exact arithmetic, not inside the model. -/
theorem resize_policy_exact_ceil_fails :
    2 * mPolicy.get_entries_count > 3 * mPolicy.get_buckets_count ∧
      (resize_if_necessary_f32 mPolicy).get_buckets_count = 7449012 ∧
      (mPolicy.resize_if_necessary).get_buckets_count = 7449013 ∧
      (7 * mPolicy.get_buckets_count + 4) / 5 = 7449013 := by
  have hlen : mPolicy.buckets.length = 5320723 := by
    simp only [mPolicy, List.length_replicate]
  have hlenG : mPolicy.get_buckets_count = 5320723 := by
    simp only [get_buckets_count, hlen]
  have hcnt : mPolicy.entries_count = 7981085 := rfl
  have hcntG : mPolicy.get_entries_count = 7981085 := by
    simp only [get_entries_count, hcnt]
  refine ⟨?_, ?_, ?_, ?_⟩
  · rw [hcntG, hlenG]
    decide
  · have hcond : loadFactor_f32 mPolicy > MAX_LOAD_FACTOR := by
      rw [loadFactor_f32, hlen, hcnt]
      with_unfolding_all decide
    have hsize : growSize_f32 5320723 = 7449012 := by
      with_unfolding_all decide
    simp only [get_buckets_count]
    rw [resize_if_necessary_f32_def, if_pos hcond, hlen, hsize]
    exact resize_buckets_length mPolicy _
  · simp only [get_buckets_count]
    rw [resize_if_necessary_eq mPolicy (by rw [hlen]; norm_num), hlen, hcnt,
      if_pos (by decide : 3 * 5320723 < 2 * 7981085)]
    rw [resize_buckets_length mPolicy _]
  · rw [hlenG]

/-- C7 (amended): whenever the resize policy is evaluated on a table with
entry count `e` and bucket count `n`, with the arithmetic carried out in
IEEE `f32` as the code does: if the `f32` load factor exceeds
`MAX_LOAD_FACTOR = 1.5` the bucket count becomes the `f32`-computed
`ceil(n * 1.4f32)`; otherwise, if it is below `MIN_LOAD_FACTOR = 0.25` and
`n / 2 > 10` (integer division), the `f32`-computed `ceil(n / 1.4f32)`;
otherwise `n` is unchanged. The `f32` sizes equal the exact `ceil(n * 1.4)`
and `ceil(n / 1.4)` at small scale (the growth orbit `10 → 14 → 20 → 28` and
the shrink `28 → 20`, second group of conjuncts) but can fall one below at
multi-million bucket counts (`growSize_f32 5320723 = 7449012`, one less than
`ceil(5320723 * 1.4) = 7449013`, last conjunct). -/
theorem resize_policy_spec_f32 (m : HashMap) :
    ((resize_if_necessary_f32 m).get_buckets_count =
      if loadFactor_f32 m > MAX_LOAD_FACTOR then
        growSize_f32 m.get_buckets_count
      else if loadFactor_f32 m < MIN_LOAD_FACTOR ∧
          MIN_BUCKET_COUNT < m.get_buckets_count / 2 then
        shrinkSize_f32 m.get_buckets_count
      else m.get_buckets_count) ∧
      (growSize_f32 10 = 14 ∧ growSize_f32 14 = 20 ∧ growSize_f32 20 = 28 ∧
        shrinkSize_f32 28 = 20) ∧
      growSize_f32 5320723 = 7449012 := by
  refine ⟨?_, by with_unfolding_all decide, by with_unfolding_all decide⟩
  show (resize_if_necessary_f32 m).buckets.length =
    if loadFactor_f32 m > MAX_LOAD_FACTOR then
      growSize_f32 m.buckets.length
    else if loadFactor_f32 m < MIN_LOAD_FACTOR ∧
        MIN_BUCKET_COUNT < m.buckets.length / 2 then
      shrinkSize_f32 m.buckets.length
    else m.buckets.length
  rw [resize_if_necessary_f32_def]
  split_ifs
  · exact resize_buckets_length m _
  · exact resize_buckets_length m _
  · rfl

/-- C8: after `set(k, v)` then `delete(k)` on any reachable state, `get(k)`
returns `none` and the entry count is exactly one less than after the set
(the `+ 1` form also shows the unsigned decrement cannot underflow); deleting
an absent key leaves the entry count unchanged. -/
theorem delete_after_set_spec {m : HashMap} (h : Reachable m) (key : Key)
    (value : Int) :
    ((m.set key value).delete key).get key = none ∧
      ((m.set key value).delete key).get_entries_count + 1
        = (m.set key value).get_entries_count ∧
      (m.get key = none →
        (m.delete key).get_entries_count = m.get_entries_count) := by
  have hm := reachable_inv h
  have hmset : Inv (m.set key value) := inv_set hm key value
  exact ⟨get_delete_self hmset key,
    (delete_entries_count_found hmset (get_set_self hm key value)).2,
    fun hnone => delete_entries_count_absent hnone⟩

theorem delete_after_set_spec_witness :
    ((HashMap.new.set [1] 7).delete [1]).get [1] = none ∧
      ((HashMap.new.set [1] 7).delete [1]).get_entries_count + 1
        = (HashMap.new.set [1] 7).get_entries_count ∧
      (HashMap.new.get [1] = none →
        (HashMap.new.delete [1]).get_entries_count
          = HashMap.new.get_entries_count) :=
  delete_after_set_spec Reachable.new [1] 7

/-- C9: `get_bucket(idx)` returns the bucket's entry sequence exactly when
`idx < get_buckets_count()` and the `IndexOutOfRange` error exactly when
`idx ≥ get_buckets_count()` (so `get_bucket(get_buckets_count())` errs). The
model takes the state by value and returns only the result, mirroring the
Rust `&self` receiver: no operation ever changes state in the error case, and
`get_bucket` is the only operation whose result type carries an error. -/
theorem get_bucket_spec (m : HashMap) (idx : Nat) :
    m.get_bucket idx =
      if idx < m.get_buckets_count then Except.ok (m.buckets.getD idx [])
      else Except.error "bucket index out of bounds" := by
  show (match m.buckets[idx]? with
    | some bucket => Except.ok bucket
    | none => Except.error "bucket index out of bounds") =
    if idx < m.buckets.length then Except.ok (m.buckets.getD idx [])
    else Except.error "bucket index out of bounds"
  rcases Nat.lt_or_ge idx m.buckets.length with h | h
  · rw [List.getElem?_eq_getElem h, if_pos h, List.getD_eq_getElem _ _ h]
  · rw [List.getElem?_eq_none h, if_neg (Nat.not_lt.mpr h)]

/-- C10: every public operation is total on every reachable state; in
particular `delete` decrements the counter only when an entry was actually
found and removed, the counter is then at least 1 (the `+ 1` equation shows
the `u32` subtraction cannot wrap), and deleting an absent key (also on the
empty table) succeeds and leaves the counter unchanged. -/
theorem delete_total_no_underflow {m : HashMap} (h : Reachable m) (key : Key) :
    ((∃ v, m.get key = some v) →
        1 ≤ m.get_entries_count ∧
          (m.delete key).get_entries_count + 1 = m.get_entries_count) ∧
      (m.get key = none →
        (m.delete key).get_entries_count = m.get_entries_count) := by
  have hm := reachable_inv h
  constructor
  · rintro ⟨v, hv⟩
    exact delete_entries_count_found hm hv
  · intro hnone
    exact delete_entries_count_absent hnone

theorem delete_total_no_underflow_witness :
    ((∃ v, HashMap.new.get [0] = some v) →
        1 ≤ HashMap.new.get_entries_count ∧
          (HashMap.new.delete [0]).get_entries_count + 1
            = HashMap.new.get_entries_count) ∧
      (HashMap.new.get [0] = none →
        (HashMap.new.delete [0]).get_entries_count
          = HashMap.new.get_entries_count) :=
  delete_total_no_underflow Reachable.new [0]

end HashMap
